import Mathlib

/-!
# Verification of the kbai model-based diagnosis core

Shallow embedding of the hitting-set pipeline of
`Assignment 2 Diagnose This/Python/hittingsets.py` (HS-tree search with
pluggable heuristics, minimality filter, brute-force enumerator) and of the
final conflict-set filtering step of `conflictsets.py`, together with proofs
of the behavioral properties stated in the specification.

Component identifiers are opaque strings ordered by the usual string order;
the embedding is generic over a linearly ordered type `α` of identifiers
(the linear order is used only where the source sorts, in the brute-force
enumerator's `sorted(list(components))`).

The Python recursion `hs_tree_recursive` has no structural termination
argument visible to Lean, so it is embedded with an explicit fuel parameter;
`run_hitting_set_algorithm` supplies fuel that is proved sufficient
(`hs_tree_total`), so the `Option` never degenerates to `none` for the
heuristics actually offered by the module.  The wall-clock timing output of
the Python function is observational and is not modelled; the node-visit
counter is modelled exactly.  `random.choice` is modelled by an arbitrary
index-choice oracle `choice`, covering every realization of the randomness.
-/

namespace KBAI

variable {α : Type} [LinearOrder α]

/-! ## Embedded source: helpers (hittingsets.py lines 47–111) -/

/-- `hits_conflict` (hittingsets.py:47): a path hits a conflict set if they
have at least one element in common. -/
def hits_conflict (path_labels : List α) (conflict_set : List α) : Bool :=
  path_labels.any (fun component => decide (component ∈ conflict_set))

/-- `get_uncovered_conflicts` (hittingsets.py:61): all conflict sets not yet
hit by the current path. -/
def get_uncovered_conflicts (path_labels : List α) (conflict_sets : List (List α)) :
    List (List α) :=
  conflict_sets.filter (fun conflict => ! hits_conflict path_labels conflict)

/-- The duplicate-removal pass of `get_minimal_hitting_sets`
(hittingsets.py:86–93).  The Python key `tuple(sorted(hitting_set))`
identifies two lists exactly when they are permutations of each other, so the
`seen`-set bookkeeping is embedded as a fold that keeps the first
representative of each permutation class. -/
def uniqueHittingSets (hitting_sets : List (List α)) : List (List α) :=
  hitting_sets.foldl
    (fun unique hs =>
      if unique.any (fun s => decide (List.Perm s hs)) then unique else unique ++ [hs])
    []

/-- `get_minimal_hitting_sets` (hittingsets.py:75): remove duplicates, then
keep only the sets of which no other set is a strict subset
(`set(others) < set(hitting_set)`). -/
def get_minimal_hitting_sets (hitting_sets : List (List α)) : List (List α) :=
  let unique := uniqueHittingSets hitting_sets
  unique.filter
    (fun hs => ! unique.any (fun others => decide (others.toFinset ⊂ hs.toFinset)))

/-! ## Embedded source: heuristics (hittingsets.py lines 115–159) -/

/-- `select_smallest_conflict` (hittingsets.py:115): `min(uncovered, key=len)`.
Python `min` keeps the first element of minimal length; on the empty list it
raises, which here surfaces as the (unreachable in the engine) `[]` branch. -/
def select_smallest_conflict (uncovered_conflicts : List (List α)) : List α :=
  match uncovered_conflicts with
  | [] => []
  | c :: cs => cs.foldl (fun best x => if x.length < best.length then x else best) c

/-- `select_random_conflict` (hittingsets.py:123): `random.choice(uncovered)`.
The randomness source is modelled by an arbitrary index oracle `choice`; the
returned element is the chosen index reduced modulo the length, so every
realization of `random.choice` is an instance of some `choice`. -/
def select_random_conflict (choice : List (List α) → Nat) (uncovered_conflicts : List (List α)) :
    List α :=
  uncovered_conflicts.getD (choice uncovered_conflicts % uncovered_conflicts.length) []

/-- One `component_counts[component] = component_counts.get(component, 0) + 1`
step of hittingsets.py:140–142, on an insertion-ordered association list
(Python dicts preserve insertion order). -/
def bumpCount (counts : List (α × Nat)) (component : α) : List (α × Nat) :=
  if counts.any (fun p => decide (p.1 = component)) then
    counts.map (fun p => if p.1 = component then (p.1, p.2 + 1) else p)
  else counts ++ [(component, 1)]

/-- The `component_counts` dictionary of hittingsets.py:139–142: occurrence
counts of every component across all uncovered conflicts, keys in first
appearance order. -/
def component_counts (uncovered_conflicts : List (List α)) : List (α × Nat) :=
  uncovered_conflicts.foldl (fun acc conflict => conflict.foldl bumpCount acc) []

/-- `max(component_counts, key=component_counts.get)` (hittingsets.py:145):
the first key (in insertion order) attaining the maximal count; `none` models
the `ValueError` Python raises on an empty dictionary. -/
def maxKey : List (α × Nat) → Option α
  | [] => none
  | p :: rest => some ((rest.foldl (fun best q => if q.2 > best.2 then q else best) p).1)

/-- `select_most_frequent_component_conflict` (hittingsets.py:131): find the
most frequent component and return the first uncovered conflict containing
it. -/
def select_most_frequent_component_conflict (uncovered_conflicts : List (List α)) : List α :=
  match maxKey (component_counts uncovered_conflicts) with
  | none => []
  | some m => (uncovered_conflicts.filter (fun conflict => decide (m ∈ conflict))).headD []

/-- The `HEURISTICS` name-to-function dictionary (hittingsets.py:155); a
missing key is the `KeyError` raised by `HEURISTICS[heuristic]`, modelled as
`none`. -/
def HEURISTICS (choice : List (List α) → Nat) (name : String) :
    Option (List (List α) → List α) :=
  if name = "smallest" then some select_smallest_conflict
  else if name = "most_frequent" then some select_most_frequent_component_conflict
  else if name = "random" then some (select_random_conflict choice)
  else none

/-! ## Embedded source: the HS tree (hittingsets.py lines 163–222)

The recursion state is the pair (solutions recorded so far, node-visit
count), threaded through the recursion exactly as the Python code mutates its
shared `solutions` list and `visit_count` cell.  `HSNode` carries only its
`path_labels` (its `is_solution` flag never influences the outputs).
`hs_tree_children` is the `for child in children` loop of
hittingsets.py:185–186. -/

/-- `hs_tree_recursive` (hittingsets.py:163): count the visit; if no conflict
is uncovered record the path as a solution; else prune when some recorded
solution is a subset of the path; else expand one child per component of the
selected conflict not already on the path (`HSNode.create_children`,
hittingsets.py:27) and recurse into the children in order, threading the
(solutions, visit count) state.  The trailing fold is the
`for child in children` loop of hittingsets.py:185–186. -/
def hs_tree_recursive (select : List (List α) → List α) (conflict_sets : List (List α)) :
    Nat → List α → List (List α) × Nat → Option (List (List α) × Nat)
  | 0, _, _ => none
  | fuel + 1, path_labels, st =>
    if (get_uncovered_conflicts path_labels conflict_sets).isEmpty then
      some (st.1 ++ [path_labels], st.2 + 1)
    else if st.1.any (fun sol => decide (sol.toFinset ⊆ path_labels.toFinset)) then
      some (st.1, st.2 + 1)
    else
      (((select (get_uncovered_conflicts path_labels conflict_sets)).filter
          (fun c => decide (c ∉ path_labels))).map (fun c => path_labels ++ [c])).foldl
        (fun acc child =>
          match acc with
          | none => none
          | some st2 => hs_tree_recursive select conflict_sets fuel child st2)
        (some (st.1, st.2 + 1))

/-- The `for child in children: hs_tree_recursive(child, …)` loop of
hittingsets.py:185–186, as a standalone function (the fold inside
`hs_tree_recursive` is exactly this). -/
def hs_tree_children (select : List (List α) → List α) (conflict_sets : List (List α))
    (fuel : Nat) (children : List (List α)) (st : List (List α) × Nat) :
    Option (List (List α) × Nat) :=
  children.foldl
    (fun acc child =>
      match acc with
      | none => none
      | some st2 => hs_tree_recursive select conflict_sets fuel child st2)
    (some st)

/-- `run_hitting_set_algorithm` (hittingsets.py:188): dispatch the heuristic,
run the HS tree from an empty root, filter the recorded solutions to the
minimal hitting sets.  Returns `(hitting_sets, minimal_hitting_sets,
visit_count)`; the elapsed wall-clock time of the source is not modelled.
The fuel `|dedup(flatten(conflict_sets))| + 1` bounds the tree depth and is
proved sufficient below. -/
def run_hitting_set_algorithm (choice : List (List α) → Nat) (conflict_sets : List (List α))
    (heuristic : String) : Option (List (List α) × List (List α) × Nat) :=
  match HEURISTICS choice heuristic with
  | none => none
  | some heuristic_func =>
    match hs_tree_recursive heuristic_func conflict_sets
        (conflict_sets.flatten.dedup.length + 1) [] ([], 0) with
    | none => none
    | some (hitting_sets, visit_count) =>
      some (hitting_sets, get_minimal_hitting_sets hitting_sets, visit_count)

/-! ## Embedded source: brute force (hittingsets.py lines 227–268) -/

/-- `hits_all` (hittingsets.py:227): a combination hits all conflict sets. -/
def hits_all (combo : List α) (conflict_sets : List (List α)) : Bool :=
  conflict_sets.all (fun conflict => combo.any (fun component => decide (component ∈ conflict)))

/-- The `components_list = sorted(list(components))` of
hittingsets.py:253–256: the universe of components appearing in any conflict
set, deduplicated and sorted. -/
def brute_components_list (conflict_sets : List (List α)) : List α :=
  List.insertionSort (· ≤ ·) conflict_sets.flatten.dedup

/-- The enumeration loop of hittingsets.py:260–263: for every size from 1 to
the number of components, every `itertools.combinations` draw of that size
(embedded as the length-`size` sublists of the sorted component list) that
hits all conflict sets. -/
def brute_hitting_sets (conflict_sets : List (List α)) : List (List α) :=
  (List.range' 1 (brute_components_list conflict_sets).length).flatMap
    (fun size =>
      ((brute_components_list conflict_sets).sublistsLen size).filter
        (fun combo => hits_all combo conflict_sets))

/-- `run_brute_force_algorithm` (hittingsets.py:245): enumerate every
combination of the sorted component universe in increasing size order, keep
those hitting all conflicts, and filter to the minimal hitting sets. -/
def run_brute_force_algorithm (conflict_sets : List (List α)) :
    List (List α) × List (List α) :=
  (brute_hitting_sets conflict_sets, get_minimal_hitting_sets (brute_hitting_sets conflict_sets))

/-! ## Embedded source: conflict-set minimality filter (conflictsets.py 342–347)

The z3-driven generation of raw conflict sets consumes the external
satisfiability oracle and is outside the embedded core; the final filtering
step operates on the collected list of candidate sets and is embedded on
`Finset`s (Python `set`s). -/

/-- The final filtering step of `retrieve_conflict_sets`
(conflictsets.py:342–345): keep `cs` when `all(not cs > other for other in
conflict_sets)`. -/
def minimal_conflicts_filter (conflict_sets : List (Finset α)) : List (Finset α) :=
  conflict_sets.filter (fun cs => conflict_sets.all (fun other => ! decide (other ⊂ cs)))

/-! ## Semantic vocabulary -/

/-- The list of component lists viewed as a set of sets (the spec compares
outputs "as a set of sets"). -/
def toSetOfSets (l : List (List α)) : Finset (Finset α) :=
  (l.map List.toFinset).toFinset

/-- `S` intersects every conflict set of the collection. -/
def isHitting (conflict_sets : List (List α)) (S : Finset α) : Prop :=
  ∀ c ∈ conflict_sets, ∃ x ∈ S, x ∈ c

/-- `S` is a hitting set none of whose proper subsets is a hitting set. -/
def isMinimalHitting (conflict_sets : List (List α)) (S : Finset α) : Prop :=
  isHitting conflict_sets S ∧ ∀ T ⊂ S, ¬ isHitting conflict_sets T

/-- A conflict-selection heuristic is valid on a collection when, fed any
non-empty list of members of the collection, it returns one of them (all
three source heuristics have this property in the engine's calling
regime). -/
def ValidOn (select : List (List α) → List α) (conflict_sets : List (List α)) : Prop :=
  ∀ unc, unc ≠ [] → (∀ c ∈ unc, c ∈ conflict_sets) → select unc ∈ unc

/-! ## Basic lemmas about the helpers -/

theorem hits_conflict_iff (path conflict : List α) :
    hits_conflict path conflict = true ↔ ∃ x ∈ path, x ∈ conflict := by
  simp [hits_conflict]

theorem mem_get_uncovered {path : List α} {css : List (List α)} {c : List α} :
    c ∈ get_uncovered_conflicts path css ↔ c ∈ css ∧ hits_conflict path c = false := by
  simp [get_uncovered_conflicts]

theorem get_uncovered_eq_nil {path : List α} {css : List (List α)} :
    get_uncovered_conflicts path css = [] ↔ ∀ c ∈ css, hits_conflict path c = true := by
  simp [get_uncovered_conflicts, List.filter_eq_nil_iff]

theorem isHitting_toFinset (css : List (List α)) (path : List α) :
    isHitting css path.toFinset ↔ ∀ c ∈ css, hits_conflict path c = true := by
  simp [isHitting, hits_conflict]

theorem perm_toFinset {l l' : List α} (h : List.Perm l l') : l.toFinset = l'.toFinset := by
  ext x
  simp [List.mem_toFinset, h.mem_iff]

/-! ## The duplicate-removal fold -/

theorem unique_foldl_acc_mem {a : List α} :
    ∀ (hss acc : List (List α)), a ∈ acc →
      a ∈ hss.foldl
        (fun unique hs =>
          if unique.any (fun s => decide (List.Perm s hs)) then unique else unique ++ [hs])
        acc := by
  intro hss
  induction hss with
  | nil => intro acc h; exact h
  | cons hd tl ih =>
    intro acc h
    simp only [List.foldl_cons]
    by_cases hc : acc.any (fun s => decide (List.Perm s hd)) = true
    · simpa [hc] using ih acc h
    · simpa [hc] using ih (acc ++ [hd]) (List.mem_append_left _ h)

theorem unique_foldl_mem {u : List α} :
    ∀ (hss acc : List (List α)),
      u ∈ hss.foldl
        (fun unique hs =>
          if unique.any (fun s => decide (List.Perm s hs)) then unique else unique ++ [hs])
        acc →
      u ∈ acc ∨ u ∈ hss := by
  intro hss
  induction hss with
  | nil => intro acc h; exact Or.inl h
  | cons hd tl ih =>
    intro acc h
    simp only [List.foldl_cons] at h
    by_cases hc : acc.any (fun s => decide (List.Perm s hd)) = true
    · rw [if_pos hc] at h
      rcases ih acc h with h' | h'
      · exact Or.inl h'
      · exact Or.inr (List.mem_cons_of_mem _ h')
    · rw [if_neg hc] at h
      rcases ih (acc ++ [hd]) h with h' | h'
      · rcases List.mem_append.mp h' with h'' | h''
        · exact Or.inl h''
        · rcases List.mem_singleton.mp h'' with rfl
          exact Or.inr (List.mem_cons_self _ _)
      · exact Or.inr (List.mem_cons_of_mem _ h')

theorem unique_foldl_rep {h : List α} :
    ∀ (hss acc : List (List α)), h ∈ hss →
      ∃ u ∈ hss.foldl
        (fun unique hs =>
          if unique.any (fun s => decide (List.Perm s hs)) then unique else unique ++ [hs])
        acc, List.Perm u h := by
  intro hss
  induction hss with
  | nil => intro acc hmem; exact absurd hmem (List.not_mem_nil h)
  | cons hd tl ih =>
    intro acc hmem
    simp only [List.foldl_cons]
    rcases List.mem_cons.mp hmem with rfl | hmem'
    · by_cases hc : acc.any (fun s => decide (List.Perm s h)) = true
      · rw [if_pos hc]
        rcases List.any_eq_true.mp hc with ⟨s, hs, hperm⟩
        exact ⟨s, unique_foldl_acc_mem tl acc hs, of_decide_eq_true hperm⟩
      · rw [if_neg hc]
        exact ⟨h, unique_foldl_acc_mem tl _ (List.mem_append_right _ (List.mem_singleton_self h)),
          List.Perm.refl h⟩
    · by_cases hc : acc.any (fun s => decide (List.Perm s hd)) = true
      · rw [if_pos hc]; exact ih acc hmem'
      · rw [if_neg hc]; exact ih (acc ++ [hd]) hmem'

theorem unique_foldl_pairwise :
    ∀ (hss acc : List (List α)), acc.Pairwise (fun a b => ¬ List.Perm a b) →
      (hss.foldl
        (fun unique hs =>
          if unique.any (fun s => decide (List.Perm s hs)) then unique else unique ++ [hs])
        acc).Pairwise (fun a b => ¬ List.Perm a b) := by
  intro hss
  induction hss with
  | nil => intro acc h; exact h
  | cons hd tl ih =>
    intro acc h
    simp only [List.foldl_cons]
    by_cases hc : acc.any (fun s => decide (List.Perm s hd)) = true
    · rw [if_pos hc]; exact ih acc h
    · rw [if_neg hc]
      refine ih (acc ++ [hd]) (List.pairwise_append.mpr ⟨h, List.pairwise_singleton _ _, ?_⟩)
      intro a ha b hb
      rcases List.mem_singleton.mp hb with rfl
      intro hperm
      exact (by simpa using hc : ∀ s ∈ acc, ¬ List.Perm s b) a ha hperm

theorem mem_uniqueHittingSets_imp {u : List α} {hss : List (List α)}
    (h : u ∈ uniqueHittingSets hss) : u ∈ hss := by
  rcases unique_foldl_mem hss [] h with h' | h'
  · exact absurd h' (List.not_mem_nil u)
  · exact h'

theorem uniqueHittingSets_rep {h : List α} {hss : List (List α)} (hmem : h ∈ hss) :
    ∃ u ∈ uniqueHittingSets hss, List.Perm u h :=
  unique_foldl_rep hss [] hmem

theorem uniqueHittingSets_pairwise (hss : List (List α)) :
    (uniqueHittingSets hss).Pairwise (fun a b => ¬ List.Perm a b) :=
  unique_foldl_pairwise hss [] (List.Pairwise.nil)

/-! ## Characterization of the minimality filter -/

theorem mem_get_minimal_hitting_sets {hss : List (List α)} {l : List α} :
    l ∈ get_minimal_hitting_sets hss ↔
      l ∈ uniqueHittingSets hss ∧
        ∀ o ∈ uniqueHittingSets hss, ¬ o.toFinset ⊂ l.toFinset := by
  simp [get_minimal_hitting_sets]

theorem get_minimal_hitting_sets_subset {hss : List (List α)} {l : List α}
    (h : l ∈ get_minimal_hitting_sets hss) : l ∈ hss :=
  mem_uniqueHittingSets_imp (mem_get_minimal_hitting_sets.mp h).1

theorem mem_toSetOfSets {l : List (List α)} {S : Finset α} :
    S ∈ toSetOfSets l ↔ ∃ h ∈ l, h.toFinset = S := by
  simp [toSetOfSets]

theorem toSetOfSets_get_minimal_hitting_sets (hss : List (List α)) (S : Finset α) :
    S ∈ toSetOfSets (get_minimal_hitting_sets hss) ↔
      S ∈ toSetOfSets hss ∧ ∀ T ∈ toSetOfSets hss, ¬ T ⊂ S := by
  constructor
  · rintro hS
    rcases mem_toSetOfSets.mp hS with ⟨l, hl, rfl⟩
    rcases mem_get_minimal_hitting_sets.mp hl with ⟨hlu, hmin⟩
    refine ⟨mem_toSetOfSets.mpr ⟨l, mem_uniqueHittingSets_imp hlu, rfl⟩, ?_⟩
    intro T hT
    rcases mem_toSetOfSets.mp hT with ⟨h, hh, rfl⟩
    rcases uniqueHittingSets_rep hh with ⟨u, hu, hperm⟩
    rw [← perm_toFinset hperm]
    exact hmin u hu
  · rintro ⟨hS, hmin⟩
    rcases mem_toSetOfSets.mp hS with ⟨h, hh, rfl⟩
    rcases uniqueHittingSets_rep hh with ⟨u, hu, hperm⟩
    refine mem_toSetOfSets.mpr ⟨u, ?_, perm_toFinset hperm⟩
    refine mem_get_minimal_hitting_sets.mpr ⟨hu, ?_⟩
    intro o ho
    rw [perm_toFinset hperm]
    exact hmin o.toFinset (mem_toSetOfSets.mpr ⟨o, mem_uniqueHittingSets_imp ho, rfl⟩)

/-! ## Unfolding lemmas for the HS-tree search -/

theorem hs_tree_children_nil (select : List (List α) → List α) (css : List (List α))
    (fuel : Nat) (st : List (List α) × Nat) :
    hs_tree_children select css fuel [] st = some st := rfl

theorem hs_tree_children_fold_none (select : List (List α) → List α) (css : List (List α))
    (fuel : Nat) :
    ∀ cs : List (List α),
      cs.foldl
        (fun acc child =>
          match acc with
          | none => none
          | some st2 => hs_tree_recursive select css fuel child st2)
        none = none := by
  intro cs
  induction cs with
  | nil => rfl
  | cons c cs ih => simpa using ih

theorem hs_tree_children_cons (select : List (List α) → List α) (css : List (List α))
    (fuel : Nat) (c : List α) (cs : List (List α)) (st : List (List α) × Nat) :
    hs_tree_children select css fuel (c :: cs) st =
      match hs_tree_recursive select css fuel c st with
      | none => none
      | some st2 => hs_tree_children select css fuel cs st2 := by
  unfold hs_tree_children
  rw [List.foldl_cons]
  cases h : hs_tree_recursive select css fuel c st with
  | none =>
    simp only [h]
    exact hs_tree_children_fold_none select css fuel cs
  | some st2 => simp only [h]

theorem hs_tree_recursive_succ (select : List (List α) → List α) (css : List (List α))
    (fuel : Nat) (path : List α) (st : List (List α) × Nat) :
    hs_tree_recursive select css (fuel + 1) path st =
      if (get_uncovered_conflicts path css).isEmpty then some (st.1 ++ [path], st.2 + 1)
      else if st.1.any (fun sol => decide (sol.toFinset ⊆ path.toFinset)) then
        some (st.1, st.2 + 1)
      else
        hs_tree_children select css fuel
          (((select (get_uncovered_conflicts path css)).filter
              (fun c => decide (c ∉ path))).map (fun c => path ++ [c]))
          (st.1, st.2 + 1) := rfl

theorem hs_tree_children_append (select : List (List α) → List α) (css : List (List α))
    (fuel : Nat) :
    ∀ (l1 l2 : List (List α)) (st : List (List α) × Nat),
      hs_tree_children select css fuel (l1 ++ l2) st =
        match hs_tree_children select css fuel l1 st with
        | none => none
        | some mid => hs_tree_children select css fuel l2 mid := by
  intro l1
  induction l1 with
  | nil => intro l2 st; rfl
  | cons c cs ih =>
    intro l2 st
    rw [List.cons_append, hs_tree_children_cons, hs_tree_children_cons]
    cases h : hs_tree_recursive select css fuel c st with
    | none => rfl
    | some st2 => exact ih l2 st2

/-! ## The generic traversal invariant

`PV` is a property of node paths preserved when a child extends the path by a
fresh component; `R` is a property of the recorded-solutions list preserved
when a path whose uncovered-conflict list is empty is recorded.  Every claim
about what the search records (soundness, monotonicity, duplicate-freeness)
is an instance. -/

theorem hs_tree_invariant (select : List (List α) → List α) (css : List (List α))
    (PV : List α → Prop) (R : List (List α) → Prop)
    (hPV : ∀ path c, PV path → c ∉ path → PV (path ++ [c]))
    (hR : ∀ sols path, R sols → PV path →
      get_uncovered_conflicts path css = [] → R (sols ++ [path])) :
    ∀ fuel : Nat,
      (∀ path st out, hs_tree_recursive select css fuel path st = some out →
        PV path → R st.1 → R out.1) ∧
      (∀ cs st out, hs_tree_children select css fuel cs st = some out →
        (∀ c ∈ cs, PV c) → R st.1 → R out.1) := by
  intro fuel
  induction fuel with
  | zero =>
    constructor
    · intro path st out h
      simp [hs_tree_recursive] at h
    · intro cs st out h hcs hr
      cases cs with
      | nil =>
        rw [hs_tree_children_nil] at h
        cases h
        exact hr
      | cons c cs' =>
        rw [hs_tree_children_cons] at h
        simp [hs_tree_recursive] at h
  | succ fuel ih =>
    have hrec : ∀ path st out, hs_tree_recursive select css (fuel + 1) path st = some out →
        PV path → R st.1 → R out.1 := by
      intro path st out h hpv hr
      rw [hs_tree_recursive_succ] at h
      by_cases h1 : (get_uncovered_conflicts path css).isEmpty = true
      · rw [if_pos h1] at h
        cases h
        exact hR st.1 path hr hpv (List.isEmpty_iff.mp h1)
      · rw [if_neg h1] at h
        by_cases h2 : st.1.any (fun sol => decide (sol.toFinset ⊆ path.toFinset)) = true
        · rw [if_pos h2] at h
          cases h
          exact hr
        · rw [if_neg h2] at h
          refine ih.2 _ _ _ h ?_ hr
          intro c hc
          rcases List.mem_map.mp hc with ⟨x, hx, rfl⟩
          rcases List.mem_filter.mp hx with ⟨_, hxdec⟩
          exact hPV path x hpv (of_decide_eq_true hxdec)
    refine ⟨hrec, ?_⟩
    intro cs
    induction cs with
    | nil =>
      intro st out h hcs hr
      rw [hs_tree_children_nil] at h
      cases h
      exact hr
    | cons c cs' ihc =>
      intro st out h hcs hr
      rw [hs_tree_children_cons] at h
      cases hrc : hs_tree_recursive select css (fuel + 1) c st with
      | none => rw [hrc] at h; cases h
      | some st2 =>
        rw [hrc] at h
        exact ihc st2 out h (fun c' hc' => hcs c' (List.mem_cons_of_mem _ hc'))
          (hrec c st st2 hrc (hcs c (List.mem_cons_self _ _)) hr)

/-- Monotonicity: everything recorded before a subtree is still recorded
after it. -/
theorem hs_tree_mono {select : List (List α) → List α} {css : List (List α)}
    {fuel : Nat} {path : List α} {st out : List (List α) × Nat}
    (h : hs_tree_recursive select css fuel path st = some out) :
    ∀ s ∈ st.1, s ∈ out.1 := by
  intro s hs
  exact (hs_tree_invariant select css (fun _ => True) (fun sols => s ∈ sols)
    (fun _ _ _ _ => trivial)
    (fun sols p hr _ _ => List.mem_append_left _ hr) fuel).1 path st out h trivial hs

theorem hs_tree_children_mono {select : List (List α) → List α} {css : List (List α)}
    {fuel : Nat} {cs : List (List α)} {st out : List (List α) × Nat}
    (h : hs_tree_children select css fuel cs st = some out) :
    ∀ s ∈ st.1, s ∈ out.1 := by
  intro s hs
  exact (hs_tree_invariant select css (fun _ => True) (fun sols => s ∈ sols)
    (fun _ _ _ _ => trivial)
    (fun sols p hr _ _ => List.mem_append_left _ hr) fuel).2 cs st out h
    (fun _ _ => trivial) hs

/-- Soundness: every recorded solution hits every conflict set. -/
theorem hs_tree_sound {select : List (List α) → List α} {css : List (List α)}
    {fuel : Nat} {path : List α} {st out : List (List α) × Nat}
    (h : hs_tree_recursive select css fuel path st = some out)
    (hst : ∀ s ∈ st.1, isHitting css s.toFinset) :
    ∀ s ∈ out.1, isHitting css s.toFinset :=
  (hs_tree_invariant select css (fun _ => True)
    (fun sols => ∀ s ∈ sols, isHitting css s.toFinset)
    (fun _ _ _ _ => trivial)
    (fun sols p hr _ hunc => by
      intro s hs
      rcases List.mem_append.mp hs with hs' | hs'
      · exact hr s hs'
      · rcases List.mem_singleton.mp hs' with rfl
        exact (isHitting_toFinset css s).mpr (get_uncovered_eq_nil.mp hunc)) fuel).1
    path st out h trivial hst

theorem hs_tree_children_sound {select : List (List α) → List α} {css : List (List α)}
    {fuel : Nat} {cs : List (List α)} {st out : List (List α) × Nat}
    (h : hs_tree_children select css fuel cs st = some out)
    (hst : ∀ s ∈ st.1, isHitting css s.toFinset) :
    ∀ s ∈ out.1, isHitting css s.toFinset :=
  (hs_tree_invariant select css (fun _ => True)
    (fun sols => ∀ s ∈ sols, isHitting css s.toFinset)
    (fun _ _ _ _ => trivial)
    (fun sols p hr _ hunc => by
      intro s hs
      rcases List.mem_append.mp hs with hs' | hs'
      · exact hr s hs'
      · rcases List.mem_singleton.mp hs' with rfl
        exact (isHitting_toFinset css s).mpr (get_uncovered_eq_nil.mp hunc)) fuel).2
    cs st out h (fun _ _ => trivial) hst

/-- Duplicate-freeness: paths only ever grow by components not already on
them, so every recorded solution is duplicate-free. -/
theorem hs_tree_nodup {select : List (List α) → List α} {css : List (List α)}
    {fuel : Nat} {path : List α} {st out : List (List α) × Nat}
    (h : hs_tree_recursive select css fuel path st = some out)
    (hpath : path.Nodup) (hst : ∀ s ∈ st.1, s.Nodup) :
    ∀ s ∈ out.1, s.Nodup :=
  (hs_tree_invariant select css List.Nodup (fun sols => ∀ s ∈ sols, s.Nodup)
    (fun p c hp hc => by simp [List.nodup_append, hp, hc])
    (fun sols p hr hp _ => by
      intro s hs
      rcases List.mem_append.mp hs with hs' | hs'
      · exact hr s hs'
      · rcases List.mem_singleton.mp hs' with rfl
        exact hp) fuel).1 path st out h hpath hst

/-! ## Fuel sufficiency -/

theorem length_filter_mono {β : Type} (l : List β) (p q : β → Bool)
    (himp : ∀ x ∈ l, p x = true → q x = true) :
    (l.filter p).length ≤ (l.filter q).length := by
  induction l with
  | nil => simp
  | cons a t ih =>
    have iht := ih (fun x hx => himp x (List.mem_cons_of_mem _ hx))
    by_cases hpa : p a = true
    · have hqa := himp a (List.mem_cons_self a t) hpa
      simp [List.filter_cons, hpa, hqa]
      omega
    · by_cases hqa : q a = true
      · simp [List.filter_cons, hpa, hqa]
        omega
      · simp [List.filter_cons, hpa, hqa]
        exact iht

theorem length_filter_lt {β : Type} (l : List β) (p q : β → Bool)
    (himp : ∀ x ∈ l, p x = true → q x = true) (x : β) (hx : x ∈ l)
    (hqx : q x = true) (hpx : p x = false) :
    (l.filter p).length < (l.filter q).length := by
  induction l with
  | nil => exact absurd hx (List.not_mem_nil x)
  | cons a t ih =>
    have himpt : ∀ y ∈ t, p y = true → q y = true :=
      fun y hy => himp y (List.mem_cons_of_mem _ hy)
    rcases List.mem_cons.mp hx with rfl | hxt
    · simp [List.filter_cons, hpx, hqx]
      have := length_filter_mono t p q himpt
      omega
    · have iht := ih himpt hxt
      by_cases hpa : p a = true
      · have hqa := himp a (List.mem_cons_self a t) hpa
        simp [List.filter_cons, hpa, hqa]
        omega
      · by_cases hqa : q a = true
        · simp [List.filter_cons, hpa, hqa]
          omega
        · simp [List.filter_cons, hpa, hqa]
          exact iht

/-- Number of universe components not yet on the path: the decreasing measure
of the HS-tree recursion (the fuel passed by `run_hitting_set_algorithm`
dominates it at the root). -/
def hsMeasure (css : List (List α)) (path : List α) : Nat :=
  (css.flatten.dedup.filter (fun x => decide (x ∉ path))).length

theorem hsMeasure_lt {css : List (List α)} {path : List α} {c : α}
    (hc : c ∈ css.flatten) (hcp : c ∉ path) :
    hsMeasure css (path ++ [c]) < hsMeasure css path := by
  refine length_filter_lt _ _ _ ?_ c (List.mem_dedup.mpr hc) (by simp [hcp]) (by simp)
  intro x _ hx
  have hx' : x ∉ path ++ [c] := of_decide_eq_true hx
  simp only [decide_eq_true_eq]
  intro hmem
  exact hx' (List.mem_append_left _ hmem)

theorem hs_tree_total (select : List (List α) → List α) (css : List (List α))
    (hval : ValidOn select css) :
    ∀ fuel : Nat,
      (∀ path st, path.Nodup → (∀ x ∈ path, x ∈ css.flatten) → hsMeasure css path < fuel →
        ∃ out, hs_tree_recursive select css fuel path st = some out) ∧
      (∀ cs st,
        (∀ c ∈ cs, c.Nodup ∧ (∀ x ∈ c, x ∈ css.flatten) ∧ hsMeasure css c < fuel) →
        ∃ out, hs_tree_children select css fuel cs st = some out) := by
  intro fuel
  induction fuel with
  | zero =>
    constructor
    · intro path st _ _ hm
      exact absurd hm (Nat.not_lt_zero _)
    · intro cs st hcs
      cases cs with
      | nil => exact ⟨st, hs_tree_children_nil select css 0 st⟩
      | cons c cs' =>
        exact absurd (hcs c (List.mem_cons_self _ _)).2.2 (Nat.not_lt_zero _)
  | succ fuel ih =>
    have hrec : ∀ path st, path.Nodup → (∀ x ∈ path, x ∈ css.flatten) →
        hsMeasure css path < fuel + 1 →
        ∃ out, hs_tree_recursive select css (fuel + 1) path st = some out := by
      intro path st hnd hsub hm
      rw [hs_tree_recursive_succ]
      by_cases h1 : (get_uncovered_conflicts path css).isEmpty = true
      · rw [if_pos h1]; exact ⟨_, rfl⟩
      · rw [if_neg h1]
        by_cases h2 : st.1.any (fun sol => decide (sol.toFinset ⊆ path.toFinset)) = true
        · rw [if_pos h2]; exact ⟨_, rfl⟩
        · rw [if_neg h2]
          apply ih.2
          intro child hchild
          rcases List.mem_map.mp hchild with ⟨x, hx, rfl⟩
          rcases List.mem_filter.mp hx with ⟨hxsel, hxdec⟩
          have hxpath : x ∉ path := of_decide_eq_true hxdec
          have hunc_ne : get_uncovered_conflicts path css ≠ [] := by
            intro heq
            rw [heq] at h1
            exact h1 rfl
          have hsel_mem := hval _ hunc_ne (fun c hc => (mem_get_uncovered.mp hc).1)
          have hsc_css : select (get_uncovered_conflicts path css) ∈ css :=
            (mem_get_uncovered.mp hsel_mem).1
          have hxfl : x ∈ css.flatten := List.mem_flatten.mpr ⟨_, hsc_css, hxsel⟩
          refine ⟨by simp [List.nodup_append, hnd, hxpath], ?_, ?_⟩
          · intro y hy
            rcases List.mem_append.mp hy with hy' | hy'
            · exact hsub y hy'
            · rcases List.mem_singleton.mp hy' with rfl
              exact hxfl
          · have hlt := hsMeasure_lt hxfl hxpath
            omega
    refine ⟨hrec, ?_⟩
    intro cs
    induction cs with
    | nil => intro st _; exact ⟨st, hs_tree_children_nil select css (fuel + 1) st⟩
    | cons c cs' ihc =>
      intro st hcs
      rcases hrec c st (hcs c (List.mem_cons_self _ _)).1 (hcs c (List.mem_cons_self _ _)).2.1
        (hcs c (List.mem_cons_self _ _)).2.2 with ⟨st2, h2⟩
      rcases ihc st2 (fun c' hc' => hcs c' (List.mem_cons_of_mem _ hc')) with ⟨out, hout⟩
      refine ⟨out, ?_⟩
      rw [hs_tree_children_cons, h2]
      exact hout

/-- With the fuel supplied by `run_hitting_set_algorithm`, a valid heuristic
always completes: the run returns the recorded solutions, their minimality
filtering, and the visit count. -/
theorem run_hitting_set_algorithm_some {choice : List (List α) → Nat}
    {css : List (List α)} {heuristic : String} {f : List (List α) → List α}
    (hf : HEURISTICS choice heuristic = some f) (hval : ValidOn f css) :
    ∃ sols v, run_hitting_set_algorithm choice css heuristic =
        some (sols, get_minimal_hitting_sets sols, v) ∧
      hs_tree_recursive f css (css.flatten.dedup.length + 1) [] ([], 0) = some (sols, v) := by
  have hfe : (css.flatten.dedup.filter (fun x => decide (x ∉ ([] : List α)))) =
      css.flatten.dedup := List.filter_eq_self.mpr (by simp)
  have hm : hsMeasure css [] < css.flatten.dedup.length + 1 := by
    simp [hsMeasure, hfe]
  rcases (hs_tree_total f css hval _).1 [] ([], 0) List.nodup_nil (by simp) hm with ⟨out, hout⟩
  refine ⟨out.1, out.2, ?_, by rw [hout]⟩
  simp only [run_hitting_set_algorithm, hf, hout]

/-! ## Completeness of the pruned search

Descending along components of a minimal hitting set `M` is never cut off:
the solution branch can only fire at `M` itself, and the pruning branch can
only fire when some already-recorded solution *is* `M`. -/

theorem hs_tree_complete (select : List (List α) → List α) (css : List (List α))
    (hval : ValidOn select css) :
    ∀ fuel : Nat,
      (∀ path st out M, hs_tree_recursive select css fuel path st = some out →
        (∀ s ∈ st.1, isHitting css s.toFinset) →
        isMinimalHitting css M → path.toFinset ⊆ M →
        ∃ p ∈ out.1, p.toFinset = M) ∧
      (∀ cs st out M, hs_tree_children select css fuel cs st = some out →
        (∀ s ∈ st.1, isHitting css s.toFinset) →
        isMinimalHitting css M → (∃ c ∈ cs, c.toFinset ⊆ M) →
        ∃ p ∈ out.1, p.toFinset = M) := by
  intro fuel
  induction fuel with
  | zero =>
    constructor
    · intro path st out M h
      simp [hs_tree_recursive] at h
    · intro cs st out M h hst hM hc
      cases cs with
      | nil =>
        rcases hc with ⟨c, hcmem, _⟩
        exact absurd hcmem (List.not_mem_nil c)
      | cons c cs2 =>
        rw [hs_tree_children_cons] at h
        simp [hs_tree_recursive] at h
  | succ fuel ih =>
    have hrec : ∀ path st out M, hs_tree_recursive select css (fuel + 1) path st = some out →
        (∀ s ∈ st.1, isHitting css s.toFinset) →
        isMinimalHitting css M → path.toFinset ⊆ M →
        ∃ p ∈ out.1, p.toFinset = M := by
      intro path st out M h hst hM hsubM
      rw [hs_tree_recursive_succ] at h
      by_cases h1 : (get_uncovered_conflicts path css).isEmpty = true
      · rw [if_pos h1] at h
        cases h
        have hhit : isHitting css path.toFinset :=
          (isHitting_toFinset css path).mpr (get_uncovered_eq_nil.mp (List.isEmpty_iff.mp h1))
        have heq : path.toFinset = M := by
          by_contra hne
          exact hM.2 _ (HasSubset.Subset.ssubset_of_ne hsubM hne) hhit
        exact ⟨path, List.mem_append_right _ (List.mem_singleton_self _), heq⟩
      · rw [if_neg h1] at h
        by_cases h2 : st.1.any (fun sol => decide (sol.toFinset ⊆ path.toFinset)) = true
        · rw [if_pos h2] at h
          cases h
          rcases List.any_eq_true.mp h2 with ⟨sol, hsol, hdec⟩
          have hsub : sol.toFinset ⊆ path.toFinset := of_decide_eq_true hdec
          have heq : sol.toFinset = M := by
            by_contra hne
            exact hM.2 _ (HasSubset.Subset.ssubset_of_ne (hsub.trans hsubM) hne) (hst sol hsol)
          exact ⟨sol, hsol, heq⟩
        · rw [if_neg h2] at h
          have hunc_ne : get_uncovered_conflicts path css ≠ [] := by
            intro heq
            rw [heq] at h1
            exact h1 rfl
          have hsel := hval _ hunc_ne (fun c hc => (mem_get_uncovered.mp hc).1)
          rcases mem_get_uncovered.mp hsel with ⟨hsc_css, hsc_unc⟩
          rcases hM.1 _ hsc_css with ⟨m, hmM, hmsc⟩
          have hmpath : m ∉ path := by
            intro hmem
            have hctr : hits_conflict path (select (get_uncovered_conflicts path css)) = true :=
              (hits_conflict_iff _ _).mpr ⟨m, hmem, hmsc⟩
            rw [hctr] at hsc_unc
            cases hsc_unc
          have hchild_mem :
              path ++ [m] ∈ ((select (get_uncovered_conflicts path css)).filter
                (fun c => decide (c ∉ path))).map (fun c => path ++ [c]) :=
            List.mem_map.mpr ⟨m, List.mem_filter.mpr ⟨hmsc, decide_eq_true hmpath⟩, rfl⟩
          refine ih.2 _ _ out M h hst hM ⟨path ++ [m], hchild_mem, ?_⟩
          rw [List.toFinset_append]
          intro y hy
          rcases Finset.mem_union.mp hy with hy2 | hy2
          · exact hsubM hy2
          · rcases List.mem_toFinset.mp hy2 with hy3
            rcases List.mem_singleton.mp hy3 with rfl
            exact hmM
    refine ⟨hrec, ?_⟩
    intro cs
    induction cs with
    | nil =>
      intro st out M h hst hM hc
      rcases hc with ⟨c, hcmem, _⟩
      exact absurd hcmem (List.not_mem_nil c)
    | cons c cs2 ihc =>
      intro st out M h hst hM hc
      rw [hs_tree_children_cons] at h
      cases hrc : hs_tree_recursive select css (fuel + 1) c st with
      | none => rw [hrc] at h; cases h
      | some st2 =>
        rw [hrc] at h
        rcases hc with ⟨c0, hc0mem, hc0sub⟩
        rcases List.mem_cons.mp hc0mem with rfl | hc0tl
        · rcases hrec c0 st st2 M hrc hst hM hc0sub with ⟨p, hp, hpM⟩
          exact ⟨p, hs_tree_children_mono h p hp, hpM⟩
        · exact ihc st2 out M h (hs_tree_sound hrc hst) hM ⟨c0, hc0tl, hc0sub⟩

/-! ## The heuristics return members of their input -/

theorem foldl_choice_mem {β : Type} (P : β → β → Prop) [DecidableRel P] :
    ∀ (l : List β) (b : β), l.foldl (fun best q => if P best q then q else best) b ∈ b :: l := by
  intro l
  induction l with
  | nil => intro b; exact List.mem_singleton_self b
  | cons a t ih =>
    intro b
    rw [List.foldl_cons]
    by_cases hc : P b a
    · rw [if_pos hc]
      exact List.mem_cons_of_mem _ (ih a)
    · rw [if_neg hc]
      rcases List.mem_cons.mp (ih b) with h | h
      · rw [h]
        exact List.mem_cons_self _ _
      · exact List.mem_cons_of_mem _ (List.mem_cons_of_mem _ h)

theorem select_smallest_conflict_mem {l : List (List α)} (h : l ≠ []) :
    select_smallest_conflict l ∈ l := by
  cases l with
  | nil => exact absurd rfl h
  | cons c cs =>
    exact foldl_choice_mem (fun best x => x.length < best.length) cs c

theorem select_random_conflict_mem (choice : List (List α) → Nat) {l : List (List α)}
    (h : l ≠ []) : select_random_conflict choice l ∈ l := by
  have hlen : 0 < l.length := List.length_pos.mpr h
  have hidx : choice l % l.length < l.length := Nat.mod_lt _ hlen
  rw [select_random_conflict, List.getD_eq_getElem l [] hidx]
  exact List.getElem_mem hidx

theorem foldl_max_snd_init :
    ∀ (l : List (α × Nat)) (b : α × Nat),
      b.2 ≤ (l.foldl (fun best q => if q.2 > best.2 then q else best) b).2 := by
  intro l
  induction l with
  | nil => intro b; exact le_refl _
  | cons a t ih =>
    intro b
    rw [List.foldl_cons]
    refine le_trans ?_ (ih (if a.2 > b.2 then a else b))
    by_cases hc : a.2 > b.2
    · rw [if_pos hc]; exact le_of_lt hc
    · rw [if_neg hc]

theorem foldl_max_snd_mem :
    ∀ (l : List (α × Nat)) (b p : α × Nat), p ∈ l →
      p.2 ≤ (l.foldl (fun best q => if q.2 > best.2 then q else best) b).2 := by
  intro l
  induction l with
  | nil => intro b p hp; exact absurd hp (List.not_mem_nil p)
  | cons a t ih =>
    intro b p hp
    rw [List.foldl_cons]
    rcases List.mem_cons.mp hp with rfl | hp'
    · refine le_trans ?_ (foldl_max_snd_init t (if p.2 > b.2 then p else b))
      by_cases hc : p.2 > b.2
      · rw [if_pos hc]
      · rw [if_neg hc]; exact le_of_not_lt hc
    · exact ih (if a.2 > b.2 then a else b) p hp'

theorem maxKey_spec {counts : List (α × Nat)} (h : counts ≠ []) :
    ∃ p ∈ counts, maxKey counts = some p.1 ∧ ∀ q ∈ counts, q.2 ≤ p.2 := by
  cases counts with
  | nil => exact absurd rfl h
  | cons p0 rest =>
    have hmem := foldl_choice_mem (fun best q : α × Nat => q.2 > best.2) rest p0
    refine ⟨_, hmem, rfl, ?_⟩
    intro q hq
    rcases List.mem_cons.mp hq with rfl | hq'
    · exact foldl_max_snd_init rest q
    · exact foldl_max_snd_mem rest p0 q hq'

/-! ## The component-counts dictionary

`CountsInv cs xs` says the association list `cs` is exactly the Python
`component_counts` dictionary for the stream of components `xs`: keys are the
distinct members of `xs` and each value is its occurrence count. -/

def CountsInv (cs : List (α × Nat)) (xs : List α) : Prop :=
  (cs.map Prod.fst).Nodup ∧ (∀ p ∈ cs, p.2 = xs.count p.1) ∧
    ∀ x : α, x ∈ cs.map Prod.fst ↔ x ∈ xs

theorem countsInv_bump {cs : List (α × Nat)} {xs : List α} (h : CountsInv cs xs) (a : α) :
    CountsInv (bumpCount cs a) (xs ++ [a]) := by
  obtain ⟨hnd, hval, hmem⟩ := h
  by_cases hc : cs.any (fun p => decide (p.1 = a)) = true
  · have hak : a ∈ cs.map Prod.fst := by
      rcases List.any_eq_true.mp hc with ⟨p, hp, hdec⟩
      exact List.mem_map.mpr ⟨p, hp, of_decide_eq_true hdec⟩
    rw [bumpCount, if_pos hc]
    have hkeys : (cs.map (fun p => if p.1 = a then (p.1, p.2 + 1) else p)).map Prod.fst =
        cs.map Prod.fst := by
      rw [List.map_map]
      apply List.map_congr_left
      intro p _
      by_cases hpa : p.1 = a <;> simp [hpa]
    refine ⟨by rw [hkeys]; exact hnd, ?_, ?_⟩
    · intro q hq
      rcases List.mem_map.mp hq with ⟨p, hp, rfl⟩
      by_cases hpa : p.1 = a
      · rw [if_pos hpa]
        have h1 : List.count p.1 [a] = 1 := by simp [hpa]
        have h2 := hval p hp
        simp only [List.count_append, h1]
        omega
      · rw [if_neg hpa]
        have h1 : List.count p.1 [a] = 0 := List.count_eq_zero.mpr (by simp [hpa])
        have h2 := hval p hp
        simp only [List.count_append, h1]
        omega
    · intro x
      rw [hkeys, hmem x, List.mem_append, List.mem_singleton]
      constructor
      · exact Or.inl
      · rintro (hx | rfl)
        · exact hx
        · exact (hmem x).mp hak
  · have hak : a ∉ cs.map Prod.fst := by
      intro hmem2
      rcases List.mem_map.mp hmem2 with ⟨p, hp, hfst⟩
      exact hc (List.any_eq_true.mpr ⟨p, hp, decide_eq_true hfst⟩)
    rw [bumpCount, if_neg hc]
    refine ⟨?_, ?_, ?_⟩
    · rw [List.map_append]
      simp [List.nodup_append, hnd, hak]
    · intro q hq
      rcases List.mem_append.mp hq with hq2 | hq2
      · have hpa : q.1 ≠ a := by
          intro he
          exact hak (he ▸ List.mem_map.mpr ⟨q, hq2, rfl⟩)
        have h1 : List.count q.1 [a] = 0 := List.count_eq_zero.mpr (by simp [hpa])
        have h2 := hval q hq2
        simp only [List.count_append, h1]
        omega
      · rcases List.mem_singleton.mp hq2 with rfl
        have hxs : List.count a xs = 0 :=
          List.count_eq_zero.mpr (fun hm => hak ((hmem a).mpr hm))
        simp [List.count_append, hxs]
    · intro x
      rw [List.map_append, List.mem_append, List.mem_append]
      simp only [List.map_cons, List.map_nil, List.mem_singleton]
      rw [hmem x]

theorem countsInv_foldl :
    ∀ (ts : List α) (cs : List (α × Nat)) (xs : List α), CountsInv cs xs →
      CountsInv (ts.foldl bumpCount cs) (xs ++ ts) := by
  intro ts
  induction ts with
  | nil => intro cs xs h; simpa using h
  | cons a t ih =>
    intro cs xs h
    rw [List.foldl_cons]
    have step := ih (bumpCount cs a) (xs ++ [a]) (countsInv_bump h a)
    simpa [List.append_assoc] using step

theorem component_counts_eq_flatten_foldl :
    ∀ (unc : List (List α)) (acc : List (α × Nat)),
      unc.foldl (fun a c => c.foldl bumpCount a) acc = (unc.flatten).foldl bumpCount acc := by
  intro unc
  induction unc with
  | nil => intro acc; rfl
  | cons c t ih =>
    intro acc
    rw [List.foldl_cons, List.flatten_cons, List.foldl_append]
    exact ih (c.foldl bumpCount acc)

theorem countsInv_component_counts (unc : List (List α)) :
    CountsInv (component_counts unc) unc.flatten := by
  rw [component_counts, component_counts_eq_flatten_foldl]
  have h0 : CountsInv ([] : List (α × Nat)) ([] : List α) := by
    refine ⟨List.nodup_nil, ?_, ?_⟩
    · intro p hp; exact absurd hp (List.not_mem_nil p)
    · intro x; simp
  simpa using countsInv_foldl unc.flatten [] [] h0

/-- The `most_frequent` heuristic: behavioral characterization.  When some
component occurs at all, the function finds a component `m` of maximal
occurrence count across the uncovered conflicts and returns the first
conflict (in input order) containing `m`. -/
theorem select_most_frequent_spec {unc : List (List α)} (hne : unc.flatten ≠ []) :
    ∃ m : α, m ∈ unc.flatten ∧
      (∀ x : α, List.count x unc.flatten ≤ List.count m unc.flatten) ∧
      (unc.filter (fun conflict => decide (m ∈ conflict))) ≠ [] ∧
      select_most_frequent_component_conflict unc =
        (unc.filter (fun conflict => decide (m ∈ conflict))).headD [] := by
  obtain ⟨hnd, hval, hmem⟩ := countsInv_component_counts unc
  have hcne : component_counts unc ≠ [] := by
    intro h0
    rcases List.exists_mem_of_ne_nil _ hne with ⟨x, hx⟩
    have := (hmem x).mpr hx
    rw [h0] at this
    simp at this
  rcases maxKey_spec hcne with ⟨p, hp, hkey, hmax⟩
  have hmfl : p.1 ∈ unc.flatten := (hmem p.1).mp (List.mem_map.mpr ⟨p, hp, rfl⟩)
  refine ⟨p.1, hmfl, ?_, ?_, ?_⟩
  · intro x
    by_cases hx : x ∈ unc.flatten
    · rcases List.mem_map.mp ((hmem x).mpr hx) with ⟨q, hq, rfl⟩
      have h1 := hval q hq
      have h2 := hval p hp
      have h3 := hmax q hq
      omega
    · rw [List.count_eq_zero.mpr hx]
      exact Nat.zero_le _
  · rcases List.mem_flatten.mp hmfl with ⟨c, hc, hmc⟩
    intro hfil
    have : c ∈ unc.filter (fun conflict => decide (p.1 ∈ conflict)) :=
      List.mem_filter.mpr ⟨hc, decide_eq_true hmc⟩
    rw [hfil] at this
    exact absurd this (List.not_mem_nil c)
  · rw [select_most_frequent_component_conflict, hkey]

theorem flatten_ne_nil {l : List (List α)} (hne : l ≠ []) (hcne : ∀ c ∈ l, c ≠ []) :
    l.flatten ≠ [] := by
  cases l with
  | nil => exact absurd rfl hne
  | cons c t =>
    rcases List.exists_mem_of_ne_nil c (hcne c (List.mem_cons_self _ _)) with ⟨x, hx⟩
    intro h
    have hmem : x ∈ (c :: t).flatten := List.mem_flatten.mpr ⟨c, List.mem_cons_self _ _, hx⟩
    rw [h] at hmem
    exact absurd hmem (List.not_mem_nil x)

theorem select_most_frequent_conflict_mem {l : List (List α)} (hne : l ≠ [])
    (hcne : ∀ c ∈ l, c ≠ []) : select_most_frequent_component_conflict l ∈ l := by
  rcases select_most_frequent_spec (flatten_ne_nil hne hcne) with ⟨m, _, _, hfne, heq⟩
  rw [heq]
  cases hfil : l.filter (fun conflict => decide (m ∈ conflict)) with
  | nil => exact absurd hfil hfne
  | cons c cs =>
    simp only [List.headD_cons]
    have hmem : c ∈ l.filter (fun conflict => decide (m ∈ conflict)) := by
      rw [hfil]
      exact List.mem_cons_self _ _
    exact (List.mem_filter.mp hmem).1

/-- Each of the three heuristic names dispatches to a function that always
selects a member of the uncovered-conflict list it is given. -/
theorem HEURISTICS_valid {choice : List (List α) → Nat} {css : List (List α)}
    (hcne : ∀ c ∈ css, c ≠ []) {name : String}
    (hname : name ∈ ["smallest", "most_frequent", "random"]) :
    ∃ f, HEURISTICS choice name = some f ∧ ValidOn f css := by
  simp only [List.mem_cons, List.mem_singleton, List.not_mem_nil, or_false] at hname
  rcases hname with rfl | rfl | rfl
  · refine ⟨select_smallest_conflict, rfl, ?_⟩
    intro unc hne _
    exact select_smallest_conflict_mem hne
  · refine ⟨select_most_frequent_component_conflict, rfl, ?_⟩
    intro unc hne hsub
    exact select_most_frequent_conflict_mem hne (fun c hc => hcne c (hsub c hc))
  · refine ⟨select_random_conflict choice, rfl, ?_⟩
    intro unc hne _
    exact select_random_conflict_mem choice hne

/-! ## From recorded solutions to exactly the minimal hitting sets -/

theorem exists_minimal_hitting_subset (css : List (List α)) :
    ∀ (n : Nat) (T : Finset α), T.card ≤ n → isHitting css T →
      ∃ M, M ⊆ T ∧ isMinimalHitting css M := by
  intro n
  induction n with
  | zero =>
    intro T hcard hhit
    have hT : T = ∅ := Finset.card_eq_zero.mp (Nat.le_zero.mp hcard)
    subst hT
    refine ⟨∅, Finset.Subset.refl _, hhit, ?_⟩
    intro T2 hT2
    exact absurd hT2 (Finset.not_ssubset_empty _)
  | succ n ih =>
    intro T hcard hhit
    by_cases hex : ∃ T2 ⊂ T, isHitting css T2
    · rcases hex with ⟨T2, hss, hhit2⟩
      have hlt : T2.card < T.card := Finset.card_lt_card hss
      rcases ih T2 (by omega) hhit2 with ⟨M, hMT, hMmin⟩
      exact ⟨M, hMT.trans hss.subset, hMmin⟩
    · exact ⟨T, Finset.Subset.refl _, hhit, fun T2 hT2 hh => hex ⟨T2, hT2, hh⟩⟩

/-- If the recorded solutions all hit and contain a representative of every
minimal hitting set, then the minimality filter turns them into exactly the
minimal hitting sets (as a set of sets). -/
theorem gmhs_sols_minimal {css : List (List α)} {sols : List (List α)}
    (hsound : ∀ s ∈ sols, isHitting css s.toFinset)
    (hcomp : ∀ M, isMinimalHitting css M → ∃ p ∈ sols, p.toFinset = M) :
    ∀ S, S ∈ toSetOfSets (get_minimal_hitting_sets sols) ↔ isMinimalHitting css S := by
  intro S
  rw [toSetOfSets_get_minimal_hitting_sets]
  constructor
  · rintro ⟨hS, hmin⟩
    rcases mem_toSetOfSets.mp hS with ⟨h, hh, rfl⟩
    refine ⟨hsound h hh, ?_⟩
    intro T hT hhitT
    rcases exists_minimal_hitting_subset css T.card T (le_refl _) hhitT with ⟨M, hMT, hMmin⟩
    rcases hcomp M hMmin with ⟨p, hp, hpM⟩
    exact hmin M (mem_toSetOfSets.mpr ⟨p, hp, hpM⟩) (lt_of_le_of_lt hMT hT)
  · intro hS
    rcases hcomp S hS with ⟨p, hp, hpS⟩
    refine ⟨mem_toSetOfSets.mpr ⟨p, hp, hpS⟩, ?_⟩
    intro T hT hTS
    rcases mem_toSetOfSets.mp hT with ⟨q, hq, rfl⟩
    exact hS.2 _ hTS (hsound q hq)

/-! ## Characterization of the brute-force enumerator -/

theorem brute_components_nodup (css : List (List α)) : (brute_components_list css).Nodup :=
  ((List.perm_insertionSort (· ≤ ·) css.flatten.dedup).nodup_iff).mpr (List.nodup_dedup _)

theorem mem_brute_components {css : List (List α)} {x : α} :
    x ∈ brute_components_list css ↔ x ∈ css.flatten := by
  rw [brute_components_list, (List.perm_insertionSort (· ≤ ·) css.flatten.dedup).mem_iff]
  exact List.mem_dedup

theorem mem_brute_hitting_sets {css : List (List α)} {l : List α} :
    l ∈ brute_hitting_sets css ↔
      l.Sublist (brute_components_list css) ∧ 1 ≤ l.length ∧ hits_all l css = true := by
  simp only [brute_hitting_sets, List.mem_flatMap, List.mem_filter, List.mem_sublistsLen,
    List.mem_range'_1]
  constructor
  · rintro ⟨size, ⟨h1, _⟩, ⟨hsub, hlen⟩, hhits⟩
    exact ⟨hsub, hlen ▸ h1, hhits⟩
  · rintro ⟨hsub, hlen, hhits⟩
    refine ⟨l.length, ⟨hlen, ?_⟩, ⟨hsub, rfl⟩, hhits⟩
    have := hsub.length_le
    omega

theorem hits_all_iff {css : List (List α)} {l : List α} :
    hits_all l css = true ↔ isHitting css l.toFinset := by
  simp [hits_all, isHitting]

theorem realize_subset {css : List (List α)} {S : Finset α}
    (hsub : ∀ x ∈ S, x ∈ css.flatten) (hne : S.Nonempty) :
    ∃ l : List α, l.toFinset = S ∧ l.Sublist (brute_components_list css) ∧ 1 ≤ l.length := by
  refine ⟨(brute_components_list css).filter (fun y => decide (y ∈ S)), ?_, List.filter_sublist _, ?_⟩
  · ext x
    simp only [List.mem_toFinset, List.mem_filter, decide_eq_true_eq]
    constructor
    · rintro ⟨_, hx⟩
      exact hx
    · intro hx
      exact ⟨mem_brute_components.mpr (hsub x hx), hx⟩
  · rcases hne with ⟨x, hx⟩
    have hmem : x ∈ (brute_components_list css).filter (fun y => decide (y ∈ S)) :=
      List.mem_filter.mpr ⟨mem_brute_components.mpr (hsub x hx), decide_eq_true hx⟩
    exact List.length_pos.mpr (List.ne_nil_of_mem hmem)

theorem minimal_hitting_subset_flatten {css : List (List α)} {S : Finset α}
    (h : isMinimalHitting css S) : ∀ x ∈ S, x ∈ css.flatten := by
  intro x hx
  by_contra hxf
  have herase : isHitting css (S.erase x) := by
    intro c hc
    rcases h.1 c hc with ⟨y, hyS, hyc⟩
    have hyx : y ≠ x := fun he => hxf (he ▸ List.mem_flatten.mpr ⟨c, hc, hyc⟩)
    exact ⟨y, Finset.mem_erase.mpr ⟨hyx, hyS⟩, hyc⟩
  exact h.2 _ (Finset.erase_ssubset hx) herase

theorem hitting_nonempty {css : List (List α)} (hne : css ≠ []) {S : Finset α}
    (h : isHitting css S) : S.Nonempty := by
  cases css with
  | nil => exact absurd rfl hne
  | cons c t =>
    rcases h c (List.mem_cons_self _ _) with ⟨x, hxS, _⟩
    exact ⟨x, hxS⟩

/-- The brute-force enumerator returns exactly the minimal hitting sets (as a
set of sets), for any non-empty conflict collection. -/
theorem brute_minimal_iff {css : List (List α)} (hne : css ≠ []) :
    ∀ S, S ∈ toSetOfSets (run_brute_force_algorithm css).2 ↔ isMinimalHitting css S := by
  intro S
  have h2 : (run_brute_force_algorithm css).2 =
      get_minimal_hitting_sets (brute_hitting_sets css) := rfl
  rw [h2, toSetOfSets_get_minimal_hitting_sets]
  constructor
  · rintro ⟨hS, hmin⟩
    rcases mem_toSetOfSets.mp hS with ⟨h, hh, rfl⟩
    rcases mem_brute_hitting_sets.mp hh with ⟨hsub, _, hhits⟩
    refine ⟨hits_all_iff.mp hhits, ?_⟩
    intro T hTS hhitT
    have hTsub : ∀ x ∈ T, x ∈ css.flatten := by
      intro x hx
      have hxh : x ∈ h.toFinset := hTS.subset hx
      exact mem_brute_components.mp (hsub.subset (List.mem_toFinset.mp hxh))
    rcases realize_subset hTsub (hitting_nonempty hne hhitT) with ⟨t, htS, htsub, htlen⟩
    have htmem : t ∈ brute_hitting_sets css :=
      mem_brute_hitting_sets.mpr ⟨htsub, htlen, hits_all_iff.mpr (htS.symm ▸ hhitT)⟩
    exact hmin T (mem_toSetOfSets.mpr ⟨t, htmem, htS⟩) hTS
  · intro hS
    rcases realize_subset (minimal_hitting_subset_flatten hS)
      (hitting_nonempty hne hS.1) with ⟨l, hlS, hlsub, hllen⟩
    have hlmem : l ∈ brute_hitting_sets css :=
      mem_brute_hitting_sets.mpr ⟨hlsub, hllen, hits_all_iff.mpr (hlS.symm ▸ hS.1)⟩
    refine ⟨mem_toSetOfSets.mpr ⟨l, hlmem, hlS⟩, ?_⟩
    intro T hT hTS
    rcases mem_toSetOfSets.mp hT with ⟨q, hq, rfl⟩
    rcases mem_brute_hitting_sets.mp hq with ⟨_, _, hqh⟩
    exact hS.2 _ hTS (hits_all_iff.mp hqh)

/-- End-to-end characterization of the HS-tree run: for any of the three
heuristic names and any randomness oracle, the run completes, its recorded
solutions all hit every conflict and are duplicate-free, and the filtered
output is (as a set of sets) exactly the minimal hitting sets. -/
theorem hs_run_minimal_iff {choice : List (List α) → Nat} {css : List (List α)}
    {heuristic : String} (hcne : ∀ c ∈ css, c ≠ [])
    (hh : heuristic ∈ ["smallest", "most_frequent", "random"]) :
    ∃ sols v, run_hitting_set_algorithm choice css heuristic =
        some (sols, get_minimal_hitting_sets sols, v) ∧
      (∀ S, S ∈ toSetOfSets (get_minimal_hitting_sets sols) ↔ isMinimalHitting css S) ∧
      (∀ s ∈ sols, isHitting css s.toFinset) ∧ (∀ s ∈ sols, s.Nodup) := by
  rcases @HEURISTICS_valid α _ choice css hcne heuristic hh with ⟨f, hf, hval⟩
  rcases run_hitting_set_algorithm_some hf hval with ⟨sols, v, hrun, hrec⟩
  have hnil : ∀ s ∈ (([], 0) : List (List α) × Nat).1, isHitting css s.toFinset := by
    intro s hs
    exact absurd hs (List.not_mem_nil s)
  have hsound : ∀ s ∈ sols, isHitting css s.toFinset := hs_tree_sound hrec hnil
  have hnodup : ∀ s ∈ sols, s.Nodup :=
    hs_tree_nodup hrec List.nodup_nil (fun s hs => absurd hs (List.not_mem_nil s))
  have hcomp : ∀ M, isMinimalHitting css M → ∃ p ∈ sols, p.toFinset = M := by
    intro M hM
    exact (hs_tree_complete f css hval _).1 [] ([], 0) (sols, v) M hrec hnil hM (by simp)
  exact ⟨sols, v, hrun, gmhs_sols_minimal hsound hcomp, hsound, hnodup⟩

theorem find_eq_headD_filter {β : Type} (p : β → Bool) (d : β) :
    ∀ l : List β, l.filter p ≠ [] → l.find? p = some ((l.filter p).headD d) := by
  intro l
  induction l with
  | nil => intro h; exact absurd rfl h
  | cons a t ih =>
    intro h
    by_cases hpa : p a = true
    · rw [List.find?_cons_of_pos _ hpa, List.filter_cons_of_pos hpa, List.headD_cons]
    · rw [List.find?_cons_of_neg _ hpa, List.filter_cons_of_neg hpa]
      rw [List.filter_cons_of_neg hpa] at h
      exact ih h

/-- C5: `get_minimal_hitting_sets` returns, as a set of sets, exactly those
input sets of which no other input set is a strict subset (equivalently:
those that are not a strict superset of any other set), after removing exact
duplicates (the output list carries no two permutation-equal lists); and the
returned set of sets is a function of the input set contents alone. -/
theorem claim_C5_minimality_filter {α : Type} [LinearOrder α] (hss hss2 : List (List α)) :
    (∀ S, S ∈ toSetOfSets (get_minimal_hitting_sets hss) ↔
        S ∈ toSetOfSets hss ∧ ∀ T ∈ toSetOfSets hss, ¬ T ⊂ S) ∧
      (get_minimal_hitting_sets hss).Pairwise (fun a b => ¬ List.Perm a b) ∧
      (toSetOfSets hss = toSetOfSets hss2 →
        toSetOfSets (get_minimal_hitting_sets hss) =
          toSetOfSets (get_minimal_hitting_sets hss2)) := by
  refine ⟨toSetOfSets_get_minimal_hitting_sets hss, ?_, ?_⟩
  · exact List.Pairwise.filter _ (uniqueHittingSets_pairwise hss)
  · intro h
    apply Finset.ext
    intro S
    rw [toSetOfSets_get_minimal_hitting_sets, toSetOfSets_get_minimal_hitting_sets, h]

/-- C5, witness: content-determinism on two permutation-different inputs with
equal set contents. -/
theorem claim_C5_witness :
    toSetOfSets [[1, 2], [2, 1], [1]] = toSetOfSets [[1], [1, 2]] ∧
      toSetOfSets (get_minimal_hitting_sets [[1, 2], [2, 1], [1]]) =
        toSetOfSets (get_minimal_hitting_sets [[1], [1, 2]]) :=
  ⟨by decide, (claim_C5_minimality_filter [[1, 2], [2, 1], [1]] [[1], [1, 2]]).2.2 (by decide)⟩

/-- C6: any heuristic name outside `{smallest, most_frequent, random}` makes
`run_hitting_set_algorithm` fail before any search: the result is the
`KeyError` (`none`), with no node visited and no hitting set recorded (the
run produces no output at all). -/
theorem claim_C6_invalid_heuristic {α : Type} [LinearOrder α]
    (choice : List (List α) → Nat) (conflict_sets : List (List α)) (heuristic : String)
    (hh : heuristic ∉ ["smallest", "most_frequent", "random"]) :
    run_hitting_set_algorithm choice conflict_sets heuristic = none := by
  have h3 : heuristic ≠ "smallest" ∧ heuristic ≠ "most_frequent" ∧ heuristic ≠ "random" := by
    simpa [not_or] using hh
  simp [run_hitting_set_algorithm, HEURISTICS, h3.1, h3.2.1, h3.2.2]

/-- C6, witness: the unknown name `"foo"`. -/
theorem claim_C6_witness :
    run_hitting_set_algorithm (fun _ => 0) [[1, 2]] "foo" = none :=
  claim_C6_invalid_heuristic (fun _ => 0) [[1, 2]] "foo" (by decide)

/-- C7: the runs with heuristic `smallest`, and likewise `most_frequent`,
are independent of the randomness oracle — the only source of run-to-run
variation in the embedding — so two runs on identical input return identical
(hitting sets, minimal hitting sets, node-visit count) triples. -/
theorem claim_C7_determinism {α : Type} [LinearOrder α]
    (choice1 choice2 : List (List α) → Nat) (conflict_sets : List (List α)) :
    run_hitting_set_algorithm choice1 conflict_sets "smallest" =
        run_hitting_set_algorithm choice2 conflict_sets "smallest" ∧
      run_hitting_set_algorithm choice1 conflict_sets "most_frequent" =
        run_hitting_set_algorithm choice2 conflict_sets "most_frequent" :=
  ⟨rfl, rfl⟩

/-- C8: on a non-empty list of non-empty uncovered conflict sets, the
`most_frequent` heuristic returns a member of the list, namely the *first*
conflict (in input order) containing a component `m` whose occurrence count
across all uncovered conflicts is maximal. -/
theorem claim_C8_most_frequent {α : Type} [LinearOrder α]
    (uncovered_conflicts : List (List α)) (hne : uncovered_conflicts ≠ [])
    (hcne : ∀ c ∈ uncovered_conflicts, c ≠ []) :
    ∃ m : α, m ∈ uncovered_conflicts.flatten ∧
      (∀ x : α, List.count x uncovered_conflicts.flatten ≤
        List.count m uncovered_conflicts.flatten) ∧
      select_most_frequent_component_conflict uncovered_conflicts ∈ uncovered_conflicts ∧
      uncovered_conflicts.find? (fun c => decide (m ∈ c)) =
        some (select_most_frequent_component_conflict uncovered_conflicts) := by
  rcases select_most_frequent_spec (flatten_ne_nil hne hcne) with ⟨m, hmfl, hmax, hfne, heq⟩
  refine ⟨m, hmfl, hmax, select_most_frequent_conflict_mem hne hcne, ?_⟩
  rw [heq]
  exact find_eq_headD_filter _ [] uncovered_conflicts hfne

/-- C8, witness: at `[[1,2],[2,3],[2]]` (most frequent component `2`, first
conflict containing it is `[1,2]`, not the smallest one `[2]`). -/
theorem claim_C8_witness :
    ∃ m : Nat, m ∈ [[1, 2], [2, 3], [2]].flatten ∧
      (∀ x : Nat, List.count x [[1, 2], [2, 3], [2]].flatten ≤
        List.count m [[1, 2], [2, 3], [2]].flatten) ∧
      select_most_frequent_component_conflict [[1, 2], [2, 3], [2]] ∈ [[1, 2], [2, 3], [2]] ∧
      [[1, 2], [2, 3], [2]].find? (fun c => decide (m ∈ c)) =
        some (select_most_frequent_component_conflict [[1, 2], [2, 3], [2]]) :=
  claim_C8_most_frequent [[1, 2], [2, 3], [2]] (by decide) (by decide)

/-- C9: the final filtering step of the conflict-set extractor returns an
antichain under strict inclusion: no returned conflict set is a proper
subset of another returned one. -/
theorem claim_C9_conflicts_antichain {α : Type} [LinearOrder α]
    (conflict_sets : List (Finset α)) :
    ∀ C ∈ minimal_conflicts_filter conflict_sets,
      ∀ D ∈ minimal_conflicts_filter conflict_sets, ¬ D ⊂ C := by
  intro C hC D hD
  rcases List.mem_filter.mp hC with ⟨_, hCall⟩
  have hD2 : D ∈ conflict_sets := (List.mem_filter.mp hD).1
  have := List.all_eq_true.mp hCall D hD2
  simpa using this

/-- C9, witness: at `[{1},{1,2}]` the filter keeps only `{1}`, and `{1}` is
not a proper subset of itself. -/
theorem claim_C9_witness :
    ({1} : Finset Nat) ∈ minimal_conflicts_filter [{1}, {1, 2}] ∧
      ¬ ({1} : Finset Nat) ⊂ ({1} : Finset Nat) :=
  ⟨by decide, claim_C9_conflicts_antichain [{1}, {1, 2}] {1} (by decide) {1} (by decide)⟩

/-- C10: whenever `run_hitting_set_algorithm` returns, every path in both
output lists (all recorded hitting sets and the minimal ones) consists of
pairwise-distinct components: `create_children` only extends a path with
components not already on it. -/
theorem claim_C10_paths_nodup {α : Type} [LinearOrder α]
    (choice : List (List α) → Nat) (conflict_sets : List (List α)) (heuristic : String)
    (hs mhs : List (List α)) (v : Nat)
    (hrun : run_hitting_set_algorithm choice conflict_sets heuristic = some (hs, mhs, v)) :
    (∀ p ∈ hs, p.Nodup) ∧ ∀ p ∈ mhs, p.Nodup := by
  cases hH : HEURISTICS choice heuristic with
  | none =>
    simp only [run_hitting_set_algorithm, hH] at hrun
    exact Option.noConfusion hrun
  | some f =>
    cases hT : hs_tree_recursive f conflict_sets
        (conflict_sets.flatten.dedup.length + 1) [] ([], 0) with
    | none =>
      simp only [run_hitting_set_algorithm, hH, hT] at hrun
      exact Option.noConfusion hrun
    | some st =>
      obtain ⟨sols, v0⟩ := st
      simp only [run_hitting_set_algorithm, hH, hT, Option.some.injEq, Prod.mk.injEq] at hrun
      obtain ⟨rfl, rfl, rfl⟩ := hrun
      have hnd : ∀ s ∈ sols, s.Nodup :=
        hs_tree_nodup hT List.nodup_nil (fun s hs2 => absurd hs2 (List.not_mem_nil s))
      exact ⟨hnd, fun p hp => hnd p (get_minimal_hitting_sets_subset hp)⟩

/-- C10, witness: a concrete completed run. -/
theorem claim_C10_witness :
    (∀ p ∈ [[1], [2, 1], [2, 3]], List.Nodup p) ∧
      ∀ p ∈ [[1], [2, 3]], List.Nodup p :=
  claim_C10_paths_nodup (fun _ => 0) [[1, 2], [1, 3]] "smallest"
    [[1], [2, 1], [2, 3]] [[1], [2, 3]] 5 (by decide)

end KBAI

namespace KBAI

/-! ## Claim theorems -/

/-- C1 (amended): for every *non-empty* finite collection of non-empty
conflict sets, under each of the heuristics `smallest`, `most_frequent` and
`random` (any realization of its randomness oracle), the minimal hitting
sets returned by `run_hitting_set_algorithm` equal, as a set of sets, the
minimal hitting sets returned by `run_brute_force_algorithm`.  (The original
claim, quantifying over *every* collection, fails at the empty collection:
see the counterexample.) -/
theorem claim_C1_cross_validation {α : Type} [LinearOrder α]
    (conflict_sets : List (List α)) (choice : List (List α) → Nat) (heuristic : String)
    (hne : conflict_sets ≠ []) (hcne : ∀ c ∈ conflict_sets, c ≠ [])
    (hh : heuristic ∈ ["smallest", "most_frequent", "random"]) :
    ∃ hs mhs v, run_hitting_set_algorithm choice conflict_sets heuristic = some (hs, mhs, v) ∧
      toSetOfSets mhs = toSetOfSets (run_brute_force_algorithm conflict_sets).2 := by
  rcases @hs_run_minimal_iff α _ choice conflict_sets heuristic hcne hh with ⟨sols, v, hrun, hiff, _, _⟩
  refine ⟨sols, _, v, hrun, ?_⟩
  apply Finset.ext
  intro S
  rw [hiff S, ← brute_minimal_iff hne S]

/-- C1, counterexample to the claim as stated: on the empty conflict-set
collection (vacuously a finite collection of non-empty conflict sets) the
HS-tree engine returns `{∅}` as its minimal hitting sets while the
brute-force enumerator returns `∅`: the two sets of sets differ. -/
theorem claim_C1_counterexample :
    run_hitting_set_algorithm (fun _ => 0) ([] : List (List Nat)) "smallest" =
      some ([[]], [[]], 1) ∧
    run_brute_force_algorithm ([] : List (List Nat)) = ([], []) ∧
    toSetOfSets [([] : List Nat)] ≠ toSetOfSets ([] : List (List Nat)) := by
  decide

/-- C1, witness: the amended claim at the concrete collection
`[[1,2],[1,3]]` with the `smallest` heuristic. -/
theorem claim_C1_witness :
    ∃ hs mhs v,
      run_hitting_set_algorithm (fun _ => 0) [[1, 2], [1, 3]] "smallest" = some (hs, mhs, v) ∧
        toSetOfSets mhs = toSetOfSets (run_brute_force_algorithm [[1, 2], [1, 3]]).2 :=
  claim_C1_cross_validation [[1, 2], [1, 3]] (fun _ => 0) "smallest"
    (by decide) (by decide) (by decide)

/-- C2 (amended): on the empty conflict-set collection,
`run_hitting_set_algorithm` (under any of the three heuristic names and any
randomness oracle) returns the empty set as the only minimal hitting set —
but it does so by invoking the tree search on the root node, which is
immediately recorded as a solution: exactly one node is visited, rather than
the claimed short-circuit with no tree search. -/
theorem claim_C2_empty_collection {α : Type} [LinearOrder α]
    (choice : List (List α) → Nat) (heuristic : String)
    (hh : heuristic ∈ ["smallest", "most_frequent", "random"]) :
    run_hitting_set_algorithm choice ([] : List (List α)) heuristic =
      some ([[]], [[]], 1) := by
  simp only [List.mem_cons, List.mem_singleton, List.not_mem_nil, or_false] at hh
  rcases hh with rfl | rfl | rfl <;> rfl

/-- C2, counterexample to the claim as stated: on the empty collection the
run does return `{∅}` as the minimal hitting sets, but with a node-visit
count of `1`, not `0` — `hs_tree_recursive` is invoked (on the root), so the
"short-circuits without invoking the tree search" part of the claim is false
of the code. -/
theorem claim_C2_counterexample :
    run_hitting_set_algorithm (fun _ => 0) ([] : List (List Nat)) "most_frequent" =
      some ([[]], [[]], 1) ∧ (1 : Nat) ≠ 0 := by
  decide

/-- C2, witness: the amended claim at a concrete heuristic name. -/
theorem claim_C2_witness :
    run_hitting_set_algorithm (fun _ => 0) ([] : List (List Nat)) "random" =
      some ([[]], [[]], 1) :=
  claim_C2_empty_collection (fun _ => 0) "random" (by decide)

/-- C3: for every collection of non-empty conflict sets and every heuristic,
every set `H` in the minimal-hitting-set output of
`run_hitting_set_algorithm`, and every `H` in that of
`run_brute_force_algorithm`, admits no proper subset (enumerated by the
search or not) hitting every conflict set. -/
theorem claim_C3_diagnosis_minimality {α : Type} [LinearOrder α]
    (conflict_sets : List (List α)) (choice : List (List α) → Nat) (heuristic : String)
    (hcne : ∀ c ∈ conflict_sets, c ≠ [])
    (hh : heuristic ∈ ["smallest", "most_frequent", "random"]) :
    ∃ hs mhs v, run_hitting_set_algorithm choice conflict_sets heuristic = some (hs, mhs, v) ∧
      (∀ H ∈ mhs, ∀ T ⊂ H.toFinset, ¬ isHitting conflict_sets T) ∧
      ∀ H ∈ (run_brute_force_algorithm conflict_sets).2, ∀ T ⊂ H.toFinset,
        ¬ isHitting conflict_sets T := by
  rcases @hs_run_minimal_iff α _ choice conflict_sets heuristic hcne hh with ⟨sols, v, hrun, hiff, _, _⟩
  refine ⟨sols, _, v, hrun, ?_, ?_⟩
  · intro H hH T hTS
    exact ((hiff H.toFinset).mp (mem_toSetOfSets.mpr ⟨H, hH, rfl⟩)).2 T hTS
  · by_cases hne : conflict_sets = []
    · subst hne
      intro H hH
      have hnil : (run_brute_force_algorithm ([] : List (List α))).2 = [] := rfl
      rw [hnil] at hH
      exact absurd hH (List.not_mem_nil H)
    · intro H hH T hTS
      exact ((brute_minimal_iff hne H.toFinset).mp (mem_toSetOfSets.mpr ⟨H, hH, rfl⟩)).2 T hTS

/-- C3, witness: at `[[1,2],[1,3]]` with the `random` heuristic. -/
theorem claim_C3_witness :
    ∃ hs mhs v,
      run_hitting_set_algorithm (fun _ => 0) [[1, 2], [1, 3]] "random" = some (hs, mhs, v) ∧
        (∀ H ∈ mhs, ∀ T ⊂ H.toFinset, ¬ isHitting [[1, 2], [1, 3]] T) ∧
        ∀ H ∈ (run_brute_force_algorithm [[1, 2], [1, 3]]).2, ∀ T ⊂ H.toFinset,
          ¬ isHitting [[1, 2], [1, 3]] T :=
  claim_C3_diagnosis_minimality [[1, 2], [1, 3]] (fun _ => 0) "random" (by decide) (by decide)

/-- C4: every set in the minimal-hitting-set output of
`run_hitting_set_algorithm` and of `run_brute_force_algorithm` has non-empty
intersection with every conflict set of the input collection. -/
theorem claim_C4_hitting_property {α : Type} [LinearOrder α]
    (conflict_sets : List (List α)) (choice : List (List α) → Nat) (heuristic : String)
    (hcne : ∀ c ∈ conflict_sets, c ≠ [])
    (hh : heuristic ∈ ["smallest", "most_frequent", "random"]) :
    ∃ hs mhs v, run_hitting_set_algorithm choice conflict_sets heuristic = some (hs, mhs, v) ∧
      (∀ H ∈ mhs, ∀ c ∈ conflict_sets, ∃ x ∈ H, x ∈ c) ∧
      ∀ H ∈ (run_brute_force_algorithm conflict_sets).2, ∀ c ∈ conflict_sets,
        ∃ x ∈ H, x ∈ c := by
  rcases @hs_run_minimal_iff α _ choice conflict_sets heuristic hcne hh with ⟨sols, v, hrun, _, hsound, _⟩
  refine ⟨sols, _, v, hrun, ?_, ?_⟩
  · intro H hH c hc
    rcases hsound H (get_minimal_hitting_sets_subset hH) c hc with ⟨x, hx1, hx2⟩
    exact ⟨x, List.mem_toFinset.mp hx1, hx2⟩
  · intro H hH c hc
    have hHb : H ∈ brute_hitting_sets conflict_sets := get_minimal_hitting_sets_subset hH
    rcases hits_all_iff.mp (mem_brute_hitting_sets.mp hHb).2.2 c hc with ⟨x, hx1, hx2⟩
    exact ⟨x, List.mem_toFinset.mp hx1, hx2⟩

/-- C4, witness: at the 3-cycle `[[1,2],[2,3],[3,1]]` with `most_frequent`. -/
theorem claim_C4_witness :
    ∃ hs mhs v,
      run_hitting_set_algorithm (fun _ => 0) [[1, 2], [2, 3], [3, 1]] "most_frequent" =
          some (hs, mhs, v) ∧
        (∀ H ∈ mhs, ∀ c ∈ [[1, 2], [2, 3], [3, 1]], ∃ x ∈ H, x ∈ c) ∧
        ∀ H ∈ (run_brute_force_algorithm [[1, 2], [2, 3], [3, 1]]).2,
          ∀ c ∈ [[1, 2], [2, 3], [3, 1]], ∃ x ∈ H, x ∈ c :=
  claim_C4_hitting_property [[1, 2], [2, 3], [3, 1]] (fun _ => 0) "most_frequent"
    (by decide) (by decide)

end KBAI
